import Mathlib

/-!
Verification of the state snapshot generator (triedb/pathdb/generate.go) and
the trie arena allocator (trie/allocator.go). Byte strings are modelled as
lists of naturals; Go nil slices are distinguished from empty slices through
Option where the distinction is load-bearing. External collaborators (the
trie package, the key-value store) are modelled abstractly following the
collaborator contracts of the specification, since their sources are not
part of the verified corpus.
-/

namespace PathdbGen

/-- Lexicographic comparison of byte strings, mirroring Go bytes.Compare,
which generate.go uses for every key ordering decision. -/
def bytesCompare : List Nat → List Nat → Ordering
  | [], [] => .eq
  | [], _ :: _ => .lt
  | _ :: _, [] => .gt
  | a :: as, b :: bs =>
    if a < b then .lt
    else if b < a then .gt
    else bytesCompare as bs

theorem bytesCompare_eq_iff : ∀ a b : List Nat, bytesCompare a b = .eq ↔ a = b
  | [], [] => by simp [bytesCompare]
  | [], _ :: _ => by simp [bytesCompare]
  | _ :: _, [] => by simp [bytesCompare]
  | a :: as, b :: bs => by
    simp only [bytesCompare]
    split_ifs with h1 h2
    · constructor
      · intro h; cases h
      · intro h; injection h with h h2; omega
    · constructor
      · intro h; cases h
      · intro h; injection h with h h2; omega
    · have hab : a = b := by omega
      rw [bytesCompare_eq_iff as bs]
      subst hab
      constructor
      · intro h; rw [h]
      · intro h; injection h

theorem bytesCompare_self (a : List Nat) : bytesCompare a a = .eq :=
  (bytesCompare_eq_iff a a).mpr rfl

theorem bytesCompare_lt_ne {a b : List Nat} (h : bytesCompare a b = .lt) : a ≠ b := by
  intro he
  subst he
  rw [bytesCompare_self] at h
  cases h

theorem bytesCompare_gt_iff_lt : ∀ a b : List Nat, bytesCompare a b = .gt ↔ bytesCompare b a = .lt
  | [], [] => by simp [bytesCompare]
  | [], _ :: _ => by simp [bytesCompare]
  | _ :: _, [] => by simp [bytesCompare]
  | a :: as, b :: bs => by
    simp only [bytesCompare]
    rcases Nat.lt_trichotomy a b with h | h | h
    · have h2 : ¬ b < a := by omega
      simp [h, h2]
    · subst h
      simp [Nat.lt_irrefl, bytesCompare_gt_iff_lt as bs]
    · have h2 : ¬ a < b := by omega
      simp [h, h2]

theorem bytesCompare_lt_trans : ∀ {a b c : List Nat},
    bytesCompare a b = .lt → bytesCompare b c = .lt → bytesCompare a c = .lt
  | [], [], _, hab, _ => by cases hab
  | [], _ :: _, [], _, hbc => by cases hbc
  | [], _ :: _, _ :: _, _, _ => by simp [bytesCompare]
  | _ :: _, [], _, hab, _ => by cases hab
  | _ :: _, _ :: _, [], _, hbc => by cases hbc
  | a :: as, b :: bs, c :: cs, hab, hbc => by
    simp only [bytesCompare] at *
    split_ifs at hab with h1 h2 <;> split_ifs at hbc with h3 h4 <;> try (cases hab)
    all_goals try (cases hbc)
    · split_ifs with h5 h6 <;> first | rfl | omega
    · split_ifs with h5 h6 <;> first | rfl | omega
    · split_ifs with h5 h6 <;> first | rfl | omega
    · split_ifs with h5 h6
      · rfl
      · omega
      · exact bytesCompare_lt_trans hab hbc

/-- One invocation of the onState callback of generateRange
(onStateCallback, generate.go:417): the key, the value (none models a Go
nil value), the write flag and the delete flag. -/
structure StateEvent where
  key : List Nat
  val : Option (List Nat)
  write : Bool
  del : Bool
deriving DecidableEq, Repr

/-- Inner loop of the two-cursor merge of generateRange (generate.go:520-544):
for the current trie item (tk, tv), snapshot entries strictly below tk are
emitted as delete callbacks; an entry with key equal to tk is consumed and
decides the write flag by byte-equality of the values; larger entries are
left alone. Returns the emitted delete events, the write flag for the trie
item, and the remaining snapshot entries. -/
def drainKV (tk tv : List Nat) : List (List Nat × List Nat) → List StateEvent × Bool × List (List Nat × List Nat)
  | [] => ([], true, [])
  | (k, v) :: rest =>
    match bytesCompare k tk with
    | .lt => ((⟨k, none, false, true⟩ : StateEvent) :: (drainKV tk tv rest).1, (drainKV tk tv rest).2)
    | .eq => ([], if v = tv then false else true, rest)
    | .gt => ([], true, (k, v) :: rest)

/-- Stop condition of the merge loop (generate.go:513-516): with a non-nil
last key, a trie key strictly beyond it stops the iteration. -/
def beyondLast (last : Option (List Nat)) (tk : List Nat) : Bool :=
  match last with
  | some l => bytesCompare tk l = .gt
  | none => false

/-- Fallback reconciliation of generateRange for an invalid segment
(generate.go:512-566): the two-cursor merge between the trie iterator stream
and the snapshot segment, followed by the tail sweep that deletes every
remaining snapshot entry (generate.go:560-565, reached both on normal
exhaustion and on the stop condition). Returns the emitted callback events
and the trieMore flag. -/
def fallbackMerge (last : Option (List Nat)) : List (List Nat × List Nat) → List (List Nat × List Nat) → List StateEvent × Bool
  | [], kv => (kv.map (fun p => ⟨p.1, none, false, true⟩), false)
  | (tk, tv) :: rest, kv =>
    if beyondLast last tk then
      (kv.map (fun p => ⟨p.1, none, false, true⟩), true)
    else
      ((drainKV tk tv kv).1 ++ (⟨tk, some tv, (drainKV tk tv kv).2.1, false⟩ : StateEvent) :: (fallbackMerge last rest (drainKV tk tv kv).2.2).1,
       (fallbackMerge last rest (drainKV tk tv kv).2.2).2)

/-- Errors arising on the generator paths. Failures of the abstract trie
collaborator (Merkle proof generation, range verification) are carried by
the collab constructor. -/
inductive GoErr where
  | invalidIterPos
  | missingTrie
  | wrongRoot (got want : Nat)
  | collab (code : Nat)
deriving DecidableEq, Repr

/-- Output of proveRange (proofResult, generate.go:234-241). hasTrie models
whether the tr field is non-nil. -/
structure ProofResult where
  keys : List (List Nat)
  vals : List (List Nat)
  diskMore : Bool
  trieMore : Bool
  proofErr : Option GoErr
  hasTrie : Bool
deriving DecidableEq, Repr

/-- valid (generate.go:244-246): the range proof succeeded. -/
def ProofResult.valid (r : ProofResult) : Prop := r.proofErr = none

/-- last (generate.go:250-256): the final collected key, none when nothing
was involved in the proving. -/
def ProofResult.lastKey (r : ProofResult) : Option (List Nat) := r.keys.getLast?

/-- Modelled from the spec: the trie collaborator contract of section 6 (the
trie package itself is not among the verified sources). stackRoot is the
stack-trie builder of 6(e), a total root computation over an ordered
key/value stream; canOpen tells whether the trie at the expected root can be
opened, 6(a); proveErr is the outcome of Merkle proof generation for one
key, 6(b); verify is the range verifier of 6(c), returning the continuation
flag and an optional error. -/
structure TrieDb where
  stackRoot : List (List Nat × List Nat) → Nat
  canOpen : Bool
  proveErr : List Nat → Option GoErr
  verify : List Nat → List (List Nat) → List (List Nat) → Bool × Option GoErr

/-- Value transformation step of the proveRange iteration
(generate.go:311-327): with no converter the raw value is kept; a converter
failure (none) keeps the raw iterator value so that one corrupted element
does not abort the procedure. -/
def convertVal (convert : Option (List Nat → Option (List Nat))) (v : List Nat) : List Nat :=
  match convert with
  | none => v
  | some f =>
    match f v with
    | none => v
    | some w => w

/-- Snapshot iteration loop of proveRange (generate.go:287-328) over the
remaining iterator rows: a row below minKey is an invalid iteration position
(hard error); a row outside the namespace ends the scan (the Hold of the
iterator is implicit in the list model); a row past the max budget ends the
scan with diskMore set; any other row is collected with the namespace bytes
stripped and the value transformed. -/
def collectRows (pfx minKey : List Nat) (convert : Option (List Nat → Option (List Nat))) : Nat → List (List Nat × List Nat) → Except GoErr (List (List Nat) × List (List Nat) × Bool)
  | _, [] => .ok ([], [], false)
  | max, (k, v) :: rest =>
    if bytesCompare k minKey = .lt then .error .invalidIterPos
    else if ¬ (k.take pfx.length = pfx) then .ok ([], [], false)
    else if max = 0 then .ok ([], [], true)
    else
      match collectRows pfx minKey convert (max - 1) rest with
      | .error e => .error e
      | .ok (ks, vs, dm) => .ok (k.drop pfx.length :: ks, convertVal convert v :: vs, dm)

/-- proveRange (generate.go:277-404). The key-value iterator is modelled by
the list of its remaining rows; origin distinguishes a Go nil slice (none)
from a present lower bound. Hard failures are returned in the error
component; a failed proof is recorded inside the returned result. On the
full-set fast path (origin nil and the disk not cut off by max) the
stack-trie root is compared against the expected root and no trie is
consulted; otherwise the trie is opened (errMissingTrie when that fails),
edge proofs are generated for the origin (the all-zero key when origin is
nil) and for the last collected key, and the range verifier decides. -/
def proveRange (db : TrieDb) (root : Nat) (pfx : List Nat) (origin : Option (List Nat)) (max : Nat) (convert : Option (List Nat → Option (List Nat))) (rows : List (List Nat × List Nat)) : Except GoErr ProofResult :=
  match collectRows pfx (pfx ++ origin.getD []) convert max rows with
  | .error e => .error e
  | .ok (keys, vals, diskMore) =>
    if origin = none ∧ diskMore = false then
      if db.stackRoot (keys.zip vals) = root then
        .ok ⟨keys, vals, false, false, none, false⟩
      else
        .ok ⟨keys, vals, false, false, some (.wrongRoot (db.stackRoot (keys.zip vals)) root), false⟩
    else if db.canOpen = false then
      .error .missingTrie
    else
      match db.proveErr (origin.getD (List.replicate 32 0)) with
      | some e => .ok ⟨keys, vals, diskMore, false, some e, true⟩
      | none =>
        match (match keys.getLast? with | some k => db.proveErr k | none => none) with
        | some e => .ok ⟨keys, vals, diskMore, false, some e, true⟩
        | none =>
          .ok ⟨keys, vals, diskMore, (db.verify (origin.getD (List.replicate 32 0)) keys vals).1,
              (db.verify (origin.getD (List.replicate 32 0)) keys vals).2, true⟩

/-- Events emitted by forEach over a valid proof result (generate.go:258-268
applied at generate.go:445): one callback per collected element, in order,
pairing keys with the values at the same index (the index ranges over the
keys and every proveRange result has as many values as keys), with the write
and delete flags cleared. -/
def forEachEvents (keys vals : List (List Nat)) : List StateEvent :=
  List.zipWith (fun k v => (⟨k, some v, false, false⟩ : StateEvent)) keys vals

/-- generateRange (generate.go:422-580). The leaf stream that the trie node
iterator would deliver from origin onwards is supplied as trieItems
(modelled from the spec, 6(d): an ascending, error-free key/value stream;
the resolver built from the snapshot data at generate.go:468-479 only
short-circuits node reads and has no observable effect here). Returns the
emitted callback events, the exhausted flag and the last collected key. -/
def generateRange (db : TrieDb) (trieItems : List (List Nat × List Nat)) (root : Nat) (pfx : List Nat) (origin : Option (List Nat)) (max : Nat) (convert : Option (List Nat → Option (List Nat))) (rows : List (List Nat × List Nat)) : Except GoErr (List StateEvent × Bool × Option (List Nat)) :=
  match proveRange db root pfx origin max convert rows with
  | .error e => .error e
  | .ok result =>
    if result.proofErr = none then
      .ok (forEachEvents result.keys result.vals, (!result.diskMore && !result.trieMore), result.lastKey)
    else if result.hasTrie = false ∧ db.canOpen = false then
      .error .missingTrie
    else
      .ok ((fallbackMerge result.lastKey trieItems (result.keys.zip result.vals)).1,
           (!(fallbackMerge result.lastKey trieItems (result.keys.zip result.vals)).2 && !result.diskMore),
           result.lastKey)

/-- splitMarker (generate.go:170-178). The Go code slices marker with the
hash width 32 as the bound, which is out of range for markers of length 1 to
31; the embedding returns none on that branch. The first component none
models the Go nil accMarker kept for the empty marker. -/
def splitMarker (marker : List Nat) : Option (Option (List Nat) × List Nat) :=
  if marker.length > 0 then
    if 32 ≤ marker.length then some (some (marker.take 32), marker) else none
  else some (none, marker)

/-- Carry loop of increaseKey over the reversed byte string: the Go loop
(generate.go:834-842) walks from the last byte towards the front,
incrementing with wraparound modulo 256, and returns at the first byte that
did not wrap to zero; none when every byte wrapped. -/
def incRev : List Nat → Option (List Nat)
  | [] => none
  | b :: rest =>
    if (b + 1) % 256 ≠ 0 then some ((b + 1) % 256 :: rest)
    else
      match incRev rest with
      | none => none
      | some done => some (0 :: done)

/-- increaseKey (generate.go:834-842): increase the key by one, nil (none)
when the entire addition overflows. -/
def increaseKey (key : List Nat) : Option (List Nat) :=
  (incRev key.reverse).map List.reverse

/-- Value of a byte string read as a big-endian integer. -/
def beVal : List Nat → Nat
  | [] => 0
  | b :: rest => b * 256 ^ rest.length + beVal rest

/-- Value of a byte string read as a little-endian integer, matching the
back-to-front carry direction of increaseKey. -/
def leVal : List Nat → Nat
  | [] => 0
  | b :: rest => b + 256 * leVal rest

/-- State touched by checkAndFlush (generate.go:584-624): the pending batch
(its value size and the journal record sitting in it), the journal record
last committed to disk, the count of committed batches, the published
progress marker g.progress, and whether each snapshot iterator has been
reopened since the last flush. -/
structure FlushState where
  batchSize : Nat
  batchJournal : Option (List Nat)
  diskJournal : Option (List Nat)
  commits : Nat
  progress : List Nat
  accIterReopened : Bool
  storIterReopened : Bool
deriving DecidableEq, Repr

/-- IdealBatchSize of the ethdb package: 100 KiB. -/
def idealBatchSize : Nat := 100 * 1024

/-- checkAndFlush (generate.go:584-624). abortObserved is the outcome of the
non-blocking poll of the abort channel; the returned Bool is true exactly
when the sentinel abort error is bubbled up. The regression log line has no
state effect and the batch commit is modelled as infallible, following the
atomic-batch collaborator contract. -/
def checkAndFlush (abortObserved : Bool) (current : List Nat) (s : FlushState) : FlushState × Bool :=
  if s.batchSize > idealBatchSize ∨ abortObserved = true then
    if abortObserved then
      ({ s with batchJournal := none, diskJournal := some current, commits := s.commits + 1,
                batchSize := 0, progress := current }, true)
    else
      ({ s with batchJournal := none, diskJournal := some current, commits := s.commits + 1,
                batchSize := 0, progress := current,
                accIterReopened := true, storIterReopened := true }, false)
  else (s, false)

/-- One account delivered to the onAccount callback (generate.go:677-744),
together with the environment decisions that influence the progress marker:
whether the delivered element is a delete, whether checkAndFlush flushes on
this call, and the progress published by the storage pass of this account,
if any. -/
structure AccEvent where
  key : List Nat
  isDelete : Bool
  flush : Bool
  storProg : Option (List Nat)
deriving DecidableEq, Repr

/-- Mutable context of the account pass: the accMarker closure variable and
the published progress marker g.progress. -/
structure AccState where
  accMarker : Option (List Nat)
  progress : List Nat
deriving DecidableEq, Repr

/-- Marker computation of generate.go:717-721: the account key alone, unless
accMarker is set, equal to the account, and the published progress carries a
storage sub-marker (length beyond one hash width), in which case the current
two-segment progress is kept. -/
def accountMarker (st : AccState) (key : List Nat) : List Nat :=
  match st.accMarker with
  | some am => if am = key ∧ st.progress.length > 32 then st.progress else key
  | none => key

/-- One onAccount callback (generate.go:677-744): a delete returns before
any marker is computed; otherwise the marker of generate.go:717-721 is
passed to checkAndFlush (which publishes it as g.progress when it flushes),
the storage pass may publish further storage markers (storProg), and
accMarker is cleared at the end. Returns the marker passed to checkAndFlush,
if any, and the updated context. -/
def onAccountStep (st : AccState) (ev : AccEvent) : Option (List Nat) × AccState :=
  if ev.isDelete then (none, st)
  else
    (some (accountMarker st ev.key),
     ⟨none, ev.storProg.getD (if ev.flush then accountMarker st ev.key else st.progress)⟩)

/-- Markers passed to checkAndFlush over a run of onAccount callbacks. -/
def runAccounts (st : AccState) : List AccEvent → List (Option (List Nat))
  | [] => []
  | ev :: rest => (onAccountStep st ev).1 :: runAccounts (onAccountStep st ev).2 rest

/-- arenaPageSize (allocator.go:44). -/
def arenaPageSize : Nat := 1024

/-- Byte-arena portion of ArenaNodeAllocator (allocator.go:64-75): the
running usedBytes counter and the number of byte pages appended so far. -/
structure Arena where
  usedBytes : Nat
  pages : Nat
deriving DecidableEq, Repr

/-- NewBytes (allocator.go:97-112), returning the updated allocator together
with the page index and page offset of the returned slice
a.bytes[pageIndex][pageOffset : pageOffset+requestLen]. Note the source
zeroes pageOffset before executing usedBytes += arenaPageSize - pageOffset,
so the overflow branch advances usedBytes by a full page. -/
def newBytes (a : Arena) (requestLen : Nat) : Arena × Nat × Nat :=
  if arenaPageSize - a.usedBytes % arenaPageSize < requestLen then
    (⟨a.usedBytes + arenaPageSize + requestLen, a.pages + 1⟩, a.usedBytes / arenaPageSize + 1, 0)
  else if a.usedBytes % arenaPageSize = 0 then
    (⟨a.usedBytes + requestLen, a.pages + 1⟩, a.usedBytes / arenaPageSize, a.usedBytes % arenaPageSize)
  else
    (⟨a.usedBytes + requestLen, a.pages⟩, a.usedBytes / arenaPageSize, a.usedBytes % arenaPageSize)

theorem drainKV_nil (tk tv : List Nat) : drainKV tk tv [] = ([], true, []) := rfl

theorem drainKV_cons_lt {tk tv k v : List Nat} {rest : List (List Nat × List Nat)}
    (h : bytesCompare k tk = .lt) :
    drainKV tk tv ((k, v) :: rest) =
      ((⟨k, none, false, true⟩ : StateEvent) :: (drainKV tk tv rest).1, (drainKV tk tv rest).2) := by
  simp [drainKV, h]

theorem drainKV_cons_eq {tk tv k v : List Nat} {rest : List (List Nat × List Nat)}
    (h : bytesCompare k tk = .eq) :
    drainKV tk tv ((k, v) :: rest) = ([], if v = tv then false else true, rest) := by
  simp [drainKV, h]

theorem drainKV_cons_gt {tk tv k v : List Nat} {rest : List (List Nat × List Nat)}
    (h : bytesCompare k tk = .gt) :
    drainKV tk tv ((k, v) :: rest) = ([], true, (k, v) :: rest) := by
  simp [drainKV, h]

/-- Every event emitted by the drain loop is a delete of a snapshot key that
lies strictly below the current trie key. -/
theorem drainKV_events (tk tv : List Nat) : ∀ kv : List (List Nat × List Nat),
    ∀ e ∈ (drainKV tk tv kv).1,
      e.del = true ∧ e.write = false ∧ e.val = none ∧
      e.key ∈ kv.map Prod.fst ∧ bytesCompare e.key tk = .lt := by
  intro kv
  induction kv with
  | nil => intro e he; simp [drainKV_nil] at he
  | cons p rest ih =>
    obtain ⟨k, v⟩ := p
    intro e he
    cases h : bytesCompare k tk with
    | lt =>
      simp only [drainKV_cons_lt h, List.mem_cons] at he
      rcases he with he | he
      · subst he; exact ⟨rfl, rfl, rfl, by simp, h⟩
      · obtain ⟨h1, h2, h3, h4, h5⟩ := ih e he
        exact ⟨h1, h2, h3, by simp [h4], h5⟩
    | eq => simp [drainKV_cons_eq h] at he
    | gt => simp [drainKV_cons_gt h] at he

/-- The snapshot entries consumed by the drain loop form a left part of the
segment, and none of the consumed keys lies strictly above the trie key. -/
theorem drainKV_split (tk tv : List Nat) : ∀ kv : List (List Nat × List Nat),
    ∃ pre, kv = pre ++ (drainKV tk tv kv).2.2 ∧
      ∀ q ∈ pre, ¬ bytesCompare q.1 tk = .gt := by
  intro kv
  induction kv with
  | nil => exact ⟨[], by simp [drainKV_nil], by simp⟩
  | cons p rest ih =>
    obtain ⟨k, v⟩ := p
    cases h : bytesCompare k tk with
    | lt =>
      obtain ⟨pre, h1, h2⟩ := ih
      refine ⟨(k, v) :: pre, ?_, ?_⟩
      · simp only [drainKV_cons_lt h]
        simpa using h1
      · intro q hq
        rcases List.mem_cons.mp hq with hq | hq
        · subst hq; simp [h]
        · exact h2 q hq
    | eq =>
      refine ⟨[(k, v)], ?_, ?_⟩
      · simp [drainKV_cons_eq h]
      · intro q hq
        simp only [List.mem_singleton] at hq
        subst hq; simp [h]
    | gt =>
      refine ⟨[], ?_, by simp⟩
      simp [drainKV_cons_gt h]

/-- With a sorted snapshot segment, the write flag computed by the drain
loop is cleared exactly when the trie item occurs byte-identically in the
segment. -/
theorem drainKV_write (tk tv : List Nat) : ∀ kv : List (List Nat × List Nat),
    kv.Pairwise (fun p q => bytesCompare p.1 q.1 = .lt) →
    ((drainKV tk tv kv).2.1 = false ↔ (tk, tv) ∈ kv) := by
  intro kv
  induction kv with
  | nil => intro _; simp [drainKV_nil]
  | cons p rest ih =>
    obtain ⟨k, v⟩ := p
    intro hkv
    rw [List.pairwise_cons] at hkv
    cases h : bytesCompare k tk with
    | lt =>
      rw [drainKV_cons_lt h]
      rw [ih hkv.2]
      have hne : k ≠ tk := bytesCompare_lt_ne h
      simp only [List.mem_cons]
      constructor
      · intro hm; exact Or.inr hm
      · intro hm
        rcases hm with hm | hm
        · exact absurd (congrArg Prod.fst hm).symm hne
        · exact hm
    | eq =>
      rw [drainKV_cons_eq h]
      have hk : k = tk := (bytesCompare_eq_iff k tk).mp h
      subst hk
      have hnot : (k, tv) ∉ rest := by
        intro hm
        have hx := hkv.1 (k, tv) hm
        rw [bytesCompare_self] at hx
        cases hx
      constructor
      · intro hw
        by_cases hv : v = tv
        · subst hv; exact List.mem_cons_self _ _
        · rw [if_neg hv] at hw; cases hw
      · intro hm
        rcases List.mem_cons.mp hm with hm | hm
        · have hv : v = tv := by
            injection hm with h1 h2
            exact h2.symm
          simp [hv]
        · exact absurd hm hnot
    | gt =>
      rw [drainKV_cons_gt h]
      have hlt : bytesCompare tk k = .lt := (bytesCompare_gt_iff_lt k tk).mp h
      have hne : tk ≠ k := bytesCompare_lt_ne hlt
      constructor
      · intro hw; cases hw
      · intro hm
        rcases List.mem_cons.mp hm with hm | hm
        · exact absurd (congrArg Prod.fst hm) hne
        · have hkq := hkv.1 (tk, tv) hm
          rw [h] at hkq
          cases hkq

theorem fallbackMerge_nil (last : Option (List Nat)) (kv : List (List Nat × List Nat)) :
    fallbackMerge last [] kv = (kv.map (fun p => ⟨p.1, none, false, true⟩), false) := rfl

theorem fallbackMerge_cons_beyond {last : Option (List Nat)} {tk tv : List Nat}
    {rest kv : List (List Nat × List Nat)} (h : beyondLast last tk = true) :
    fallbackMerge last ((tk, tv) :: rest) kv =
      (kv.map (fun p => ⟨p.1, none, false, true⟩), true) := by
  simp [fallbackMerge, h]

theorem fallbackMerge_cons {last : Option (List Nat)} {tk tv : List Nat}
    {rest kv : List (List Nat × List Nat)} (h : beyondLast last tk = false) :
    fallbackMerge last ((tk, tv) :: rest) kv =
      ((drainKV tk tv kv).1 ++
        (⟨tk, some tv, (drainKV tk tv kv).2.1, false⟩ : StateEvent) :: (fallbackMerge last rest (drainKV tk tv kv).2.2).1,
       (fallbackMerge last rest (drainKV tk tv kv).2.2).2) := by
  simp [fallbackMerge, h]

theorem beyondLast_true {last : Option (List Nat)} {tk : List Nat}
    (h : beyondLast last tk = true) : ∃ l, last = some l ∧ bytesCompare tk l = .gt := by
  cases last with
  | none => simp [beyondLast] at h
  | some l => exact ⟨l, rfl, by simpa [beyondLast] using h⟩

theorem beyondLast_false {last : Option (List Nat)} {tk l : List Nat}
    (h : beyondLast last tk = false) (hl : last = some l) : ¬ bytesCompare tk l = .gt := by
  subst hl
  simpa [beyondLast] using h

/-- Classification of every callback emitted by the fallback merge: deletes
carry snapshot keys with a nil value and a cleared write flag; the other
events carry trie items within the proven window, the write flag cleared
exactly when the item occurs byte-identically in the snapshot segment; and
trieMore is set exactly when a trie key lies beyond the non-nil last key. -/
theorem fallbackMerge_classify (last : Option (List Nat)) :
    ∀ trieItems : List (List Nat × List Nat),
      trieItems.Pairwise (fun p q => bytesCompare p.1 q.1 = .lt) →
    ∀ kv : List (List Nat × List Nat),
      kv.Pairwise (fun p q => bytesCompare p.1 q.1 = .lt) →
      (∀ e ∈ (fallbackMerge last trieItems kv).1, e.del = true →
          e.write = false ∧ e.val = none ∧ e.key ∈ kv.map Prod.fst) ∧
      (∀ e ∈ (fallbackMerge last trieItems kv).1, e.del = false →
          ∃ w, e.val = some w ∧ (e.key, w) ∈ trieItems ∧
            (∀ l, last = some l → ¬ bytesCompare e.key l = .gt) ∧
            (e.write = false ↔ (e.key, w) ∈ kv)) ∧
      ((fallbackMerge last trieItems kv).2 = true ↔
          ∃ l, last = some l ∧ ∃ p ∈ trieItems, bytesCompare p.1 l = .gt) := by
  intro trieItems
  induction trieItems with
  | nil =>
    intro _ kv _
    refine ⟨?_, ?_, ?_⟩
    · intro e he _
      simp only [fallbackMerge_nil, List.mem_map] at he
      obtain ⟨p, hp, rfl⟩ := he
      exact ⟨rfl, rfl, List.mem_map_of_mem Prod.fst hp⟩
    · intro e he hdel
      simp only [fallbackMerge_nil, List.mem_map] at he
      obtain ⟨p, hp, rfl⟩ := he
      cases hdel
    · simp [fallbackMerge_nil]
  | cons pq rest ih =>
    obtain ⟨tk, tv⟩ := pq
    intro htr kv hkv
    rw [List.pairwise_cons] at htr
    cases hb : beyondLast last tk with
    | true =>
      refine ⟨?_, ?_, ?_⟩
      · intro e he _
        simp only [fallbackMerge_cons_beyond hb, List.mem_map] at he
        obtain ⟨p, hp, rfl⟩ := he
        exact ⟨rfl, rfl, List.mem_map_of_mem Prod.fst hp⟩
      · intro e he hdel
        simp only [fallbackMerge_cons_beyond hb, List.mem_map] at he
        obtain ⟨p, hp, rfl⟩ := he
        cases hdel
      · simp only [fallbackMerge_cons_beyond hb]
        constructor
        · intro _
          obtain ⟨l, hl, hgt⟩ := beyondLast_true hb
          exact ⟨l, hl, (tk, tv), List.mem_cons_self _ _, hgt⟩
        · intro _; trivial
    | false =>
      obtain ⟨pre, hsplit, hpre⟩ := drainKV_split tk tv kv
      have hkv2 : (drainKV tk tv kv).2.2.Pairwise (fun p q => bytesCompare p.1 q.1 = .lt) := by
        rw [hsplit] at hkv
        exact (List.pairwise_append.mp hkv).2.1
      have IH := ih htr.2 (drainKV tk tv kv).2.2 hkv2
      refine ⟨?_, ?_, ?_⟩
      · intro e he hdel
        simp only [fallbackMerge_cons hb, List.mem_append, List.mem_cons] at he
        rcases he with he | he | he
        · obtain ⟨_, h2, h3, h4, _⟩ := drainKV_events tk tv kv e he
          exact ⟨h2, h3, h4⟩
        · subst he; cases hdel
        · obtain ⟨h2, h3, h4⟩ := IH.1 e he hdel
          refine ⟨h2, h3, ?_⟩
          rw [hsplit, List.map_append]
          exact List.mem_append_right _ h4
      · intro e he hdel
        simp only [fallbackMerge_cons hb, List.mem_append, List.mem_cons] at he
        rcases he with he | he | he
        · obtain ⟨h1, _, _, _, _⟩ := drainKV_events tk tv kv e he
          rw [h1] at hdel
          cases hdel
        · subst he
          refine ⟨tv, rfl, List.mem_cons_self _ _, ?_, ?_⟩
          · intro l hl
            exact beyondLast_false hb hl
          · exact drainKV_write tk tv kv hkv
        · obtain ⟨w, hval, hmem, hlast, hwiff⟩ := IH.2.1 e he hdel
          refine ⟨w, hval, List.mem_cons_of_mem _ hmem, hlast, ?_⟩
          constructor
          · intro hw
            rw [hsplit]
            exact List.mem_append_right _ (hwiff.mp hw)
          · intro hw
            apply hwiff.mpr
            rw [hsplit] at hw
            rcases List.mem_append.mp hw with hw | hw
            · exfalso
              have h1 := hpre _ hw
              have h2 := htr.1 (e.key, w) hmem
              exact h1 ((bytesCompare_gt_iff_lt _ _).mpr h2)
            · exact hw
      · simp only [fallbackMerge_cons hb]
        rw [IH.2.2]
        constructor
        · rintro ⟨l, hl, p, hp, hgt⟩
          exact ⟨l, hl, p, List.mem_cons_of_mem _ hp, hgt⟩
        · rintro ⟨l, hl, p, hp, hgt⟩
          rcases List.mem_cons.mp hp with hp | hp
          · exfalso
            subst hp
            exact beyondLast_false hb hl hgt
          · exact ⟨l, hl, p, hp, hgt⟩

/-- Claim C1: during fallback reconciliation of an invalid segment
(generateRange with a proof result whose proofErr is non-nil, embodied by
fallbackMerge over the trie iterator stream and the snapshot segment), every
on-state callback emitted is classified as follows: a delete callback
(val nil, write false, delete true) always carries a snapshot key — one
strictly below the current trie key or one remaining after the trie
iterator ends; a non-delete callback carries a trie item whose key never
exceeds a non-nil last, with write false (untouched) exactly when the
snapshot holds the byte-identical pair and write true (update or create)
otherwise; and trieMore is set exactly when the trie stream holds a key
strictly greater than a non-nil last, at which point iteration stops. -/
theorem c1_fallback_classification (trieItems kv : List (List Nat × List Nat))
    (last : Option (List Nat))
    (htr : trieItems.Pairwise (fun p q => bytesCompare p.1 q.1 = .lt))
    (hkv : kv.Pairwise (fun p q => bytesCompare p.1 q.1 = .lt)) :
    (∀ e ∈ (fallbackMerge last trieItems kv).1, e.del = true →
        e.write = false ∧ e.val = none ∧ e.key ∈ kv.map Prod.fst) ∧
    (∀ e ∈ (fallbackMerge last trieItems kv).1, e.del = false →
        ∃ w, e.val = some w ∧ (e.key, w) ∈ trieItems ∧
          (∀ l, last = some l → ¬ bytesCompare e.key l = .gt) ∧
          (e.write = false ↔ (e.key, w) ∈ kv)) ∧
    ((fallbackMerge last trieItems kv).2 = true ↔
        ∃ l, last = some l ∧ ∃ p ∈ trieItems, bytesCompare p.1 l = .gt) :=
  fallbackMerge_classify last trieItems htr kv hkv

/-- Witness for claim C1 at a concrete invalid segment: the trie holds keys
[1] and [3], the snapshot holds [1] (byte-identical) and a stale [2], and
the proven window ends at last = [2]. -/
theorem c1_fallback_classification_witness :
    ([([1], [10]), ([3], [30])] : List (List Nat × List Nat)).Pairwise
      (fun p q => bytesCompare p.1 q.1 = .lt) ∧
    ([([1], [10]), ([2], [9])] : List (List Nat × List Nat)).Pairwise
      (fun p q => bytesCompare p.1 q.1 = .lt) ∧
    ((∀ e ∈ (fallbackMerge (some [2]) [([1], [10]), ([3], [30])] [([1], [10]), ([2], [9])]).1,
        e.del = true →
        e.write = false ∧ e.val = none ∧
          e.key ∈ ([([1], [10]), ([2], [9])] : List (List Nat × List Nat)).map Prod.fst) ∧
     (∀ e ∈ (fallbackMerge (some [2]) [([1], [10]), ([3], [30])] [([1], [10]), ([2], [9])]).1,
        e.del = false →
        ∃ w, e.val = some w ∧ (e.key, w) ∈ ([([1], [10]), ([3], [30])] : List (List Nat × List Nat)) ∧
          (∀ l, (some [2] : Option (List Nat)) = some l → ¬ bytesCompare e.key l = .gt) ∧
          (e.write = false ↔ (e.key, w) ∈ ([([1], [10]), ([2], [9])] : List (List Nat × List Nat)))) ∧
     ((fallbackMerge (some [2]) [([1], [10]), ([3], [30])] [([1], [10]), ([2], [9])]).2 = true ↔
        ∃ l, (some [2] : Option (List Nat)) = some l ∧
          ∃ p ∈ ([([1], [10]), ([3], [30])] : List (List Nat × List Nat)), bytesCompare p.1 l = .gt)) :=
  ⟨by decide, by decide,
    c1_fallback_classification [([1], [10]), ([3], [30])] [([1], [10]), ([2], [9])] (some [2])
      (by decide) (by decide)⟩

theorem collectRows_nil (pfx minKey : List Nat) (convert : Option (List Nat → Option (List Nat))) (max : Nat) :
    collectRows pfx minKey convert max [] = .ok ([], [], false) := rfl

theorem collectRows_cons_lt {pfx minKey k v : List Nat} {convert : Option (List Nat → Option (List Nat))} {max : Nat} {rest : List (List Nat × List Nat)}
    (h : bytesCompare k minKey = .lt) :
    collectRows pfx minKey convert max ((k, v) :: rest) = .error .invalidIterPos := by
  simp [collectRows, h]

theorem collectRows_cons_out {pfx minKey k v : List Nat} {convert : Option (List Nat → Option (List Nat))} {max : Nat} {rest : List (List Nat × List Nat)}
    (h1 : ¬ bytesCompare k minKey = .lt) (h2 : ¬ k.take pfx.length = pfx) :
    collectRows pfx minKey convert max ((k, v) :: rest) = .ok ([], [], false) := by
  simp [collectRows, h1, h2]

theorem collectRows_cons_max {pfx minKey k v : List Nat} {convert : Option (List Nat → Option (List Nat))} {rest : List (List Nat × List Nat)}
    (h1 : ¬ bytesCompare k minKey = .lt) (h2 : k.take pfx.length = pfx) :
    collectRows pfx minKey convert 0 ((k, v) :: rest) = .ok ([], [], true) := by
  simp [collectRows, h1, h2]

theorem collectRows_cons_step {pfx minKey k v : List Nat} {convert : Option (List Nat → Option (List Nat))} {max : Nat} {rest : List (List Nat × List Nat)}
    (h1 : ¬ bytesCompare k minKey = .lt) (h2 : k.take pfx.length = pfx) (h3 : ¬ max = 0) :
    collectRows pfx minKey convert max ((k, v) :: rest) =
      match collectRows pfx minKey convert (max - 1) rest with
      | .error e => .error e
      | .ok (ks, vs, dm) => .ok (k.drop pfx.length :: ks, convertVal convert v :: vs, dm) := by
  simp [collectRows, h1, h2, h3]

/-- Every successful iteration collects as many values as keys. -/
theorem collectRows_length {pfx minKey : List Nat} {convert : Option (List Nat → Option (List Nat))} :
    ∀ {max : Nat} {rows : List (List Nat × List Nat)} {ks vs : List (List Nat)} {dm : Bool},
      collectRows pfx minKey convert max rows = .ok (ks, vs, dm) → ks.length = vs.length := by
  intro max rows
  induction rows generalizing max with
  | nil =>
    intro ks vs dm h
    rw [collectRows_nil] at h
    injection h with h
    injection h with h1 h
    injection h with h2 h3
    subst h1; subst h2; rfl
  | cons p rest ih =>
    obtain ⟨k, v⟩ := p
    intro ks vs dm h
    by_cases hlt : bytesCompare k minKey = .lt
    · rw [collectRows_cons_lt hlt] at h; cases h
    · by_cases htake : k.take pfx.length = pfx
      · by_cases hmax : max = 0
        · subst hmax
          rw [collectRows_cons_max hlt htake] at h
          injection h with h
          injection h with h1 h
          injection h with h2 h3
          subst h1; subst h2; rfl
        · rw [collectRows_cons_step hlt htake hmax] at h
          cases hrec : collectRows pfx minKey convert (max - 1) rest with
          | error e => rw [hrec] at h; cases h
          | ok t =>
            obtain ⟨ks2, vs2, dm2⟩ := t
            rw [hrec] at h
            injection h with h
            injection h with h1 h
            injection h with h2 h3
            subst h1; subst h2
            simpa using ih hrec
      · rw [collectRows_cons_out hlt htake] at h
        injection h with h
        injection h with h1 h
        injection h with h2 h3
        subst h1; subst h2; rfl

/-- The iteration fails only with the invalid-position error, and only when
some row key lies below the lower bound. -/
theorem collectRows_error {pfx minKey : List Nat} {convert : Option (List Nat → Option (List Nat))} :
    ∀ {max : Nat} {rows : List (List Nat × List Nat)} {e : GoErr},
      collectRows pfx minKey convert max rows = .error e →
      e = .invalidIterPos ∧ ∃ p ∈ rows, bytesCompare p.1 minKey = .lt := by
  intro max rows
  induction rows generalizing max with
  | nil => intro e h; rw [collectRows_nil] at h; cases h
  | cons p rest ih =>
    obtain ⟨k, v⟩ := p
    intro e h
    by_cases hlt : bytesCompare k minKey = .lt
    · rw [collectRows_cons_lt hlt] at h
      injection h with h
      exact ⟨h.symm, (k, v), List.mem_cons_self _ _, hlt⟩
    · by_cases htake : k.take pfx.length = pfx
      · by_cases hmax : max = 0
        · subst hmax; rw [collectRows_cons_max hlt htake] at h; cases h
        · rw [collectRows_cons_step hlt htake hmax] at h
          cases hrec : collectRows pfx minKey convert (max - 1) rest with
          | error e2 =>
            rw [hrec] at h
            injection h with h
            subst h
            obtain ⟨h1, p, hp, hplt⟩ := ih hrec
            exact ⟨h1, p, List.mem_cons_of_mem _ hp, hplt⟩
          | ok t =>
            obtain ⟨ks2, vs2, dm2⟩ := t
            rw [hrec] at h
            cases h
      · rw [collectRows_cons_out hlt htake] at h; cases h

/-- With a sorted row stream, a row below the lower bound makes the
iteration fail at its very first step. -/
theorem collectRows_sorted_error {pfx minKey : List Nat} {convert : Option (List Nat → Option (List Nat))} {max : Nat}
    {rows : List (List Nat × List Nat)}
    (hs : rows.Pairwise (fun p q => bytesCompare p.1 q.1 = .lt))
    (hex : ∃ p ∈ rows, bytesCompare p.1 minKey = .lt) :
    collectRows pfx minKey convert max rows = .error .invalidIterPos := by
  obtain ⟨p, hp, hplt⟩ := hex
  cases rows with
  | nil => cases hp
  | cons q rest =>
    obtain ⟨k, v⟩ := q
    have hk : bytesCompare k minKey = .lt := by
      rcases List.mem_cons.mp hp with hp | hp
      · subst hp; exact hplt
      · exact bytesCompare_lt_trans ((List.pairwise_cons.mp hs).1 p hp) hplt
    exact collectRows_cons_lt hk

theorem convertVal_none (v : List Nat) : convertVal none v = v := rfl

theorem convertVal_some (f : List Nat → Option (List Nat)) (v : List Nat) :
    convertVal (some f) v = (f v).getD v := by
  cases hf : f v <;> simp [convertVal, hf]

/-- Running the iteration with a value transform succeeds or fails exactly
as the raw iteration does, collecting the same keys and the same diskMore
flag, with each value replaced by its transform when the transform succeeds
and kept raw when it fails. -/
theorem collectRows_convert {pfx minKey : List Nat} {f : List Nat → Option (List Nat)} :
    ∀ {max : Nat} {rows : List (List Nat × List Nat)},
      collectRows pfx minKey (some f) max rows =
        match collectRows pfx minKey none max rows with
        | .error e => .error e
        | .ok (ks, vs, dm) => .ok (ks, vs.map (fun v => (f v).getD v), dm) := by
  intro max rows
  induction rows generalizing max with
  | nil => rw [collectRows_nil, collectRows_nil]; rfl
  | cons p rest ih =>
    obtain ⟨k, v⟩ := p
    by_cases hlt : bytesCompare k minKey = .lt
    · rw [collectRows_cons_lt hlt, collectRows_cons_lt hlt]
    · by_cases htake : k.take pfx.length = pfx
      · by_cases hmax : max = 0
        · subst hmax
          rw [collectRows_cons_max hlt htake, collectRows_cons_max hlt htake]; rfl
        · rw [collectRows_cons_step hlt htake hmax, collectRows_cons_step hlt htake hmax]
          rw [ih]
          cases hrec : collectRows pfx minKey none (max - 1) rest with
          | error e => rfl
          | ok t =>
            obtain ⟨ks2, vs2, dm2⟩ := t
            simp [convertVal_some, convertVal_none]
      · rw [collectRows_cons_out hlt htake, collectRows_cons_out hlt htake]; rfl

theorem proveRange_collect_error {db : TrieDb} {root : Nat} {pfx : List Nat} {origin : Option (List Nat)} {max : Nat} {convert : Option (List Nat → Option (List Nat))} {rows : List (List Nat × List Nat)} {e : GoErr}
    (hc : collectRows pfx (pfx ++ origin.getD []) convert max rows = .error e) :
    proveRange db root pfx origin max convert rows = .error e := by
  simp [proveRange, hc]

theorem proveRange_fast {db : TrieDb} {root : Nat} {pfx : List Nat} {origin : Option (List Nat)} {max : Nat} {convert : Option (List Nat → Option (List Nat))} {rows : List (List Nat × List Nat)} {keys vals : List (List Nat)} {dm : Bool}
    (hc : collectRows pfx (pfx ++ origin.getD []) convert max rows = .ok (keys, vals, dm))
    (ho : origin = none) (hd : dm = false) :
    proveRange db root pfx origin max convert rows =
      (if db.stackRoot (keys.zip vals) = root then
        .ok ⟨keys, vals, false, false, none, false⟩
      else
        .ok ⟨keys, vals, false, false, some (.wrongRoot (db.stackRoot (keys.zip vals)) root), false⟩) := by
  subst ho; subst hd
  have hc2 : collectRows pfx pfx convert max rows = .ok (keys, vals, false) := by
    simpa using hc
  simp [proveRange, hc2]

theorem proveRange_missing {db : TrieDb} {root : Nat} {pfx : List Nat} {origin : Option (List Nat)} {max : Nat} {convert : Option (List Nat → Option (List Nat))} {rows : List (List Nat × List Nat)} {keys vals : List (List Nat)} {dm : Bool}
    (hc : collectRows pfx (pfx ++ origin.getD []) convert max rows = .ok (keys, vals, dm))
    (hno : ¬ (origin = none ∧ dm = false)) (hcan : db.canOpen = false) :
    proveRange db root pfx origin max convert rows = .error .missingTrie := by
  simp only [proveRange, hc]
  rw [if_neg hno, if_pos hcan]

theorem proveRange_chunked (db : TrieDb) (root : Nat) {pfx : List Nat} {origin : Option (List Nat)} {max : Nat} {convert : Option (List Nat → Option (List Nat))} {rows : List (List Nat × List Nat)} {keys vals : List (List Nat)} {dm : Bool}
    (hc : collectRows pfx (pfx ++ origin.getD []) convert max rows = .ok (keys, vals, dm))
    (hno : ¬ (origin = none ∧ dm = false)) (hcan : db.canOpen = true) :
    ∃ tm : Bool, ∃ pe : Option GoErr,
      proveRange db root pfx origin max convert rows = .ok ⟨keys, vals, dm, tm, pe, true⟩ := by
  simp only [proveRange, hc]
  rw [if_neg hno, if_neg (by simp [hcan])]
  cases h1 : db.proveErr (origin.getD (List.replicate 32 0)) with
  | some e => exact ⟨false, some e, rfl⟩
  | none =>
    cases h2 : (match keys.getLast? with | some k => db.proveErr k | none => none) with
    | some e => exact ⟨false, some e, rfl⟩
    | none =>
      exact ⟨(db.verify (origin.getD (List.replicate 32 0)) keys vals).1,
             (db.verify (origin.getD (List.replicate 32 0)) keys vals).2, rfl⟩

/-- Every successful proveRange run passes the collected keys, values and
diskMore flag through unchanged. -/
theorem proveRange_ok_shape {db : TrieDb} {root : Nat} {pfx : List Nat} {origin : Option (List Nat)} {max : Nat} {convert : Option (List Nat → Option (List Nat))} {rows : List (List Nat × List Nat)} {r : ProofResult}
    (h : proveRange db root pfx origin max convert rows = .ok r) :
    collectRows pfx (pfx ++ origin.getD []) convert max rows = .ok (r.keys, r.vals, r.diskMore) := by
  cases hc : collectRows pfx (pfx ++ origin.getD []) convert max rows with
  | error e => rw [proveRange_collect_error hc] at h; cases h
  | ok t =>
    obtain ⟨keys, vals, dm⟩ := t
    by_cases hfast : origin = none ∧ dm = false
    · rw [proveRange_fast hc hfast.1 hfast.2] at h
      by_cases hroot : db.stackRoot (keys.zip vals) = root
      · rw [if_pos hroot] at h
        injection h with h
        subst h
        rw [hfast.2]
      · rw [if_neg hroot] at h
        injection h with h
        subst h
        rw [hfast.2]
    · cases hcan : db.canOpen with
      | false => rw [proveRange_missing hc hfast hcan] at h; cases h
      | true =>
        obtain ⟨tm, pe, heq⟩ := proveRange_chunked db root hc hfast hcan
        rw [heq] at h
        injection h with h
        subst h
        rfl

/-- Every hard error of proveRange is the invalid-position error or the
missing-trie sentinel. -/
theorem proveRange_error_cases {db : TrieDb} {root : Nat} {pfx : List Nat} {origin : Option (List Nat)} {max : Nat} {convert : Option (List Nat → Option (List Nat))} {rows : List (List Nat × List Nat)} {e : GoErr}
    (h : proveRange db root pfx origin max convert rows = .error e) :
    e = .invalidIterPos ∨ e = .missingTrie := by
  cases hc : collectRows pfx (pfx ++ origin.getD []) convert max rows with
  | error e2 =>
    rw [proveRange_collect_error hc] at h
    injection h with h
    subst h
    exact Or.inl (collectRows_error hc).1
  | ok t =>
    obtain ⟨keys, vals, dm⟩ := t
    by_cases hfast : origin = none ∧ dm = false
    · rw [proveRange_fast hc hfast.1 hfast.2] at h
      by_cases hroot : db.stackRoot (keys.zip vals) = root
      · rw [if_pos hroot] at h; cases h
      · rw [if_neg hroot] at h; cases h
    · cases hcan : db.canOpen with
      | false =>
        rw [proveRange_missing hc hfast hcan] at h
        injection h with h
        exact Or.inr h.symm
      | true =>
        obtain ⟨tm, pe, heq⟩ := proveRange_chunked db root hc hfast hcan
        rw [heq] at h
        cases h

/-- Projections of the forEach event stream over a valid segment: the keys
in order, the values in order, and cleared write and delete flags. -/
theorem forEachEvents_spec : ∀ ks vs : List (List Nat), ks.length = vs.length →
    (forEachEvents ks vs).map (fun e => e.key) = ks ∧
    (forEachEvents ks vs).map (fun e => e.val) = vs.map some ∧
    ∀ e ∈ forEachEvents ks vs, e.write = false ∧ e.del = false := by
  intro ks
  induction ks with
  | nil =>
    intro vs h
    cases vs with
    | nil => exact ⟨rfl, rfl, by intro e he; cases he⟩
    | cons v vs => simp at h
  | cons k ks ih =>
    intro vs h
    cases vs with
    | nil => simp at h
    | cons v vs =>
      obtain ⟨h1, h2, h3⟩ := ih vs (by simpa using h)
      refine ⟨?_, ?_, ?_⟩
      · show ((⟨k, some v, false, false⟩ : StateEvent) :: forEachEvents ks vs).map (fun e => e.key) = k :: ks
        simp [h1]
      · show ((⟨k, some v, false, false⟩ : StateEvent) :: forEachEvents ks vs).map (fun e => e.val) = (v :: vs).map some
        simp [h2]
      · intro e he
        rcases List.mem_cons.mp he with he | he
        · subst he; exact ⟨rfl, rfl⟩
        · exact h3 e he

/-- Claim C2: when the range proof succeeds (proofErr nil), generateRange
invokes the on-state callback exactly once for every key/value pair of the
proof result, in order, with write and delete cleared; it performs no trie
iteration (its outcome does not depend on the supplied trie stream), and it
returns exhausted as the conjunction of the negated diskMore and trieMore
flags together with last equal to the final key of the proof result (nil
when the result is empty). -/
theorem c2_valid_segment (db : TrieDb) (trieItems : List (List Nat × List Nat)) (root : Nat)
    (pfx : List Nat) (origin : Option (List Nat)) (max : Nat)
    (convert : Option (List Nat → Option (List Nat))) (rows : List (List Nat × List Nat))
    (r : ProofResult)
    (hpr : proveRange db root pfx origin max convert rows = .ok r)
    (hvalid : r.proofErr = none) :
    generateRange db trieItems root pfx origin max convert rows =
      .ok (forEachEvents r.keys r.vals, (!r.diskMore && !r.trieMore), r.lastKey) ∧
    (forEachEvents r.keys r.vals).map (fun e => e.key) = r.keys ∧
    (forEachEvents r.keys r.vals).map (fun e => e.val) = r.vals.map some ∧
    (∀ e ∈ forEachEvents r.keys r.vals, e.write = false ∧ e.del = false) ∧
    (∀ tI2 : List (List Nat × List Nat),
      generateRange db tI2 root pfx origin max convert rows =
        generateRange db trieItems root pfx origin max convert rows) ∧
    r.lastKey = r.keys.getLast? := by
  have hlen : r.keys.length = r.vals.length := collectRows_length (proveRange_ok_shape hpr)
  have hgen : ∀ tI : List (List Nat × List Nat),
      generateRange db tI root pfx origin max convert rows =
        .ok (forEachEvents r.keys r.vals, (!r.diskMore && !r.trieMore), r.lastKey) := by
    intro tI
    simp [generateRange, hpr, hvalid]
  obtain ⟨h1, h2, h3⟩ := forEachEvents_spec r.keys r.vals hlen
  exact ⟨hgen trieItems, h1, h2, h3,
    fun tI2 => (hgen tI2).trans (hgen trieItems).symm, rfl⟩

theorem collectRows_convert_inv {pfx minKey : List Nat} {f : List Nat → Option (List Nat)}
    {max : Nat} {rows : List (List Nat × List Nat)} {ks vs : List (List Nat)} {dm : Bool}
    (h : collectRows pfx minKey (some f) max rows = .ok (ks, vs, dm)) :
    ∃ raws : List (List Nat),
      collectRows pfx minKey none max rows = .ok (ks, raws, dm) ∧
      vs = raws.map (fun v => (f v).getD v) := by
  cases hraw : collectRows pfx minKey none max rows with
  | error e =>
    rw [collectRows_convert, hraw] at h
    exact Except.noConfusion h
  | ok t =>
    obtain ⟨ks2, raws, dm2⟩ := t
    rw [collectRows_convert, hraw] at h
    injection h with h
    injection h with h1 h
    injection h with h2 h3
    subst h1; subst h3
    exact ⟨raws, rfl, h2.symm⟩

/-- Claim C3: proveRange takes the full-set fast path — rebuilding a stack
trie from the collected keys and values and comparing its root against the
expected root, with an outcome depending only on the stack-trie builder (no
trie opened, no Merkle proofs generated) — if and only if origin is nil and
diskMore is false; on a root match the result is valid (proofErr nil) and on
a mismatch the result carries a wrong-root proofErr; away from the fast path
the trie at the expected root is opened, observable as the missing-trie hard
error exactly whenever that opening fails. -/
theorem c3_fast_path (db : TrieDb) (root : Nat) (pfx : List Nat) (origin : Option (List Nat))
    (max : Nat) (convert : Option (List Nat → Option (List Nat)))
    (rows : List (List Nat × List Nat)) (keys vals : List (List Nat)) (dm : Bool)
    (hc : collectRows pfx (pfx ++ origin.getD []) convert max rows = .ok (keys, vals, dm)) :
    (origin = none → dm = false →
      proveRange db root pfx origin max convert rows =
        .ok ⟨keys, vals, false, false,
          (if db.stackRoot (keys.zip vals) = root then none
           else some (.wrongRoot (db.stackRoot (keys.zip vals)) root)), false⟩ ∧
      (∀ db2 : TrieDb, db2.stackRoot = db.stackRoot →
        proveRange db2 root pfx origin max convert rows =
          proveRange db root pfx origin max convert rows)) ∧
    (¬ (origin = none ∧ dm = false) →
      proveRange { db with canOpen := false } root pfx origin max convert rows =
        .error .missingTrie) := by
  constructor
  · intro ho hd
    have hone : ∀ db3 : TrieDb, proveRange db3 root pfx origin max convert rows =
        .ok ⟨keys, vals, false, false,
          (if db3.stackRoot (keys.zip vals) = root then none
           else some (.wrongRoot (db3.stackRoot (keys.zip vals)) root)), false⟩ := by
      intro db3
      rw [proveRange_fast hc ho hd]
      by_cases hroot : db3.stackRoot (keys.zip vals) = root
      · rw [if_pos hroot, if_pos hroot]
      · rw [if_neg hroot, if_neg hroot]
    refine ⟨hone db, ?_⟩
    intro db2 hsr
    rw [hone db2, hone db, hsr]
  · intro hno
    exact proveRange_missing hc hno rfl

/-- Claim C4: proveRange never returns a hard error because a proof failed —
its only hard errors are the invalid-iteration-position error, raised
(over a sorted row stream) exactly when the iterator yields a key below the
namespace bytes followed by origin, and the missing-trie sentinel, raised
exactly when the chunked path is reached and the trie at the expected root
cannot be opened. -/
theorem c4_hard_errors (db : TrieDb) (root : Nat) (pfx : List Nat) (origin : Option (List Nat))
    (max : Nat) (convert : Option (List Nat → Option (List Nat)))
    (rows : List (List Nat × List Nat))
    (hs : rows.Pairwise (fun p q => bytesCompare p.1 q.1 = .lt)) :
    (∀ e, proveRange db root pfx origin max convert rows = .error e →
      e = .invalidIterPos ∨ e = .missingTrie) ∧
    (proveRange db root pfx origin max convert rows = .error .invalidIterPos ↔
      ∃ p ∈ rows, bytesCompare p.1 (pfx ++ origin.getD []) = .lt) ∧
    (proveRange db root pfx origin max convert rows = .error .missingTrie ↔
      db.canOpen = false ∧
        ∃ keys vals dm,
          collectRows pfx (pfx ++ origin.getD []) convert max rows = .ok (keys, vals, dm) ∧
          ¬ (origin = none ∧ dm = false)) := by
  refine ⟨fun e h => proveRange_error_cases h, ⟨?_, ?_⟩, ⟨?_, ?_⟩⟩
  · intro h
    cases hc : collectRows pfx (pfx ++ origin.getD []) convert max rows with
    | error e2 => exact (collectRows_error hc).2
    | ok t =>
      obtain ⟨keys, vals, dm⟩ := t
      by_cases hfast : origin = none ∧ dm = false
      · rw [proveRange_fast hc hfast.1 hfast.2] at h
        by_cases hroot : db.stackRoot (keys.zip vals) = root
        · rw [if_pos hroot] at h; cases h
        · rw [if_neg hroot] at h; cases h
      · cases hcan : db.canOpen with
        | false =>
          rw [proveRange_missing hc hfast hcan] at h
          injection h with h
          cases h
        | true =>
          obtain ⟨tm, pe, heq⟩ := proveRange_chunked db root hc hfast hcan
          rw [heq] at h; cases h
  · intro hex
    exact proveRange_collect_error (collectRows_sorted_error hs hex)
  · intro h
    cases hc : collectRows pfx (pfx ++ origin.getD []) convert max rows with
    | error e2 =>
      rw [proveRange_collect_error hc] at h
      injection h with h
      have h2 := (collectRows_error hc).1
      rw [h2] at h
      cases h
    | ok t =>
      obtain ⟨keys, vals, dm⟩ := t
      by_cases hfast : origin = none ∧ dm = false
      · rw [proveRange_fast hc hfast.1 hfast.2] at h
        by_cases hroot : db.stackRoot (keys.zip vals) = root
        · rw [if_pos hroot] at h; cases h
        · rw [if_neg hroot] at h; cases h
      · cases hcan : db.canOpen with
        | false => exact ⟨rfl, keys, vals, dm, rfl, hfast⟩
        | true =>
          obtain ⟨tm, pe, heq⟩ := proveRange_chunked db root hc hfast hcan
          rw [heq] at h; cases h
  · rintro ⟨hcan, keys, vals, dm, hc, hno⟩
    exact proveRange_missing hc hno hcan

/-- Claim C8: a failed value transform keeps the raw iterator value in its
place and iteration continues rather than aborting — the transformed run
collects the same keys and diskMore flag as the raw run, with every value
equal to its transform when the transform succeeds and the raw value when it
fails; consequently every proofResult returned by proveRange has as many
values as keys. -/
theorem c8_convert_tolerance (db : TrieDb) (root : Nat) (pfx : List Nat) (origin : Option (List Nat))
    (max : Nat) (f : List Nat → Option (List Nat)) (rows : List (List Nat × List Nat))
    (r : ProofResult)
    (hpr : proveRange db root pfx origin max (some f) rows = .ok r) :
    r.keys.length = r.vals.length ∧
    ∃ raws : List (List Nat),
      collectRows pfx (pfx ++ origin.getD []) none max rows = .ok (r.keys, raws, r.diskMore) ∧
      r.vals = raws.map (fun v => (f v).getD v) := by
  have hshape := proveRange_ok_shape hpr
  exact ⟨collectRows_length hshape, collectRows_convert_inv hshape⟩

/-- Concrete trie collaborator used by the witnesses: the stack root of any
stream is 7, the trie can be opened, proof generation and verification
succeed. -/
def dbW : TrieDb := ⟨fun _ => 7, true, fun _ => none, fun _ _ _ => (false, none)⟩

/-- Concrete valid proof result used by the C2 witness. -/
def rW : ProofResult := ⟨[[0]], [[5]], false, false, none, false⟩

/-- Witness for claim C2 at a one-element valid segment. -/
theorem c2_valid_segment_witness :
    proveRange dbW 7 [] none 1 none [([0], [5])] = .ok rW ∧
    rW.proofErr = none ∧
    (generateRange dbW [] 7 [] none 1 none [([0], [5])] =
        .ok (forEachEvents rW.keys rW.vals, (!rW.diskMore && !rW.trieMore), rW.lastKey) ∧
      (forEachEvents rW.keys rW.vals).map (fun e => e.key) = rW.keys ∧
      (forEachEvents rW.keys rW.vals).map (fun e => e.val) = rW.vals.map some ∧
      (∀ e ∈ forEachEvents rW.keys rW.vals, e.write = false ∧ e.del = false) ∧
      (∀ tI2 : List (List Nat × List Nat),
        generateRange dbW tI2 7 [] none 1 none [([0], [5])] =
          generateRange dbW [] 7 [] none 1 none [([0], [5])]) ∧
      rW.lastKey = rW.keys.getLast?) :=
  ⟨rfl, rfl, c2_valid_segment dbW [] 7 [] none 1 none [([0], [5])] rW rfl rfl⟩

/-- Witness for claim C3 at an empty collected segment with nil origin. -/
theorem c3_fast_path_witness :
    collectRows [] ([] ++ (none : Option (List Nat)).getD []) none 1 [] =
      .ok ([], [], false) ∧
    (((none : Option (List Nat)) = none → false = false →
      proveRange dbW 7 [] none 1 none [] =
        .ok ⟨[], [], false, false,
          (if dbW.stackRoot (List.zip ([] : List (List Nat)) ([] : List (List Nat))) = 7 then none
           else some (.wrongRoot (dbW.stackRoot (List.zip ([] : List (List Nat)) ([] : List (List Nat)))) 7)), false⟩ ∧
      (∀ db2 : TrieDb, db2.stackRoot = dbW.stackRoot →
        proveRange db2 7 [] none 1 none [] = proveRange dbW 7 [] none 1 none [])) ∧
    (¬ ((none : Option (List Nat)) = none ∧ false = false) →
      proveRange { dbW with canOpen := false } 7 [] none 1 none [] =
        .error .missingTrie)) :=
  ⟨rfl, c3_fast_path dbW 7 [] none 1 none [] [] [] false rfl⟩

/-- Witness for claim C4 at a sorted one-row stream. -/
theorem c4_hard_errors_witness :
    ([([1], [2])] : List (List Nat × List Nat)).Pairwise
      (fun p q => bytesCompare p.1 q.1 = .lt) ∧
    ((∀ e, proveRange dbW 7 [] none 1 none [([1], [2])] = .error e →
        e = .invalidIterPos ∨ e = .missingTrie) ∧
     (proveRange dbW 7 [] none 1 none [([1], [2])] = .error .invalidIterPos ↔
        ∃ p ∈ ([([1], [2])] : List (List Nat × List Nat)),
          bytesCompare p.1 ([] ++ (none : Option (List Nat)).getD []) = .lt) ∧
     (proveRange dbW 7 [] none 1 none [([1], [2])] = .error .missingTrie ↔
        dbW.canOpen = false ∧
          ∃ keys vals dm,
            collectRows [] ([] ++ (none : Option (List Nat)).getD []) none 1 [([1], [2])] =
              .ok (keys, vals, dm) ∧
            ¬ ((none : Option (List Nat)) = none ∧ dm = false))) :=
  ⟨by decide, c4_hard_errors dbW 7 [] none 1 none [([1], [2])] (by decide)⟩

/-- Value transform used by the C8 witness: it fails on the value [1] and
prepends a zero byte otherwise. -/
def fW : List Nat → Option (List Nat) := fun v => if v = [1] then none else some (0 :: v)

/-- Concrete proof result used by the C8 witness: the transform failed on
the first element, whose raw value was kept. -/
def rW8 : ProofResult := ⟨[[1], [2]], [[1], [0, 2]], false, false, none, false⟩

/-- Witness for claim C8 at a two-row stream whose first value poisons the
transform. -/
theorem c8_convert_tolerance_witness :
    proveRange dbW 7 [] none 2 (some fW) [([1], [1]), ([2], [2])] = .ok rW8 ∧
    (rW8.keys.length = rW8.vals.length ∧
      ∃ raws : List (List Nat),
        collectRows [] ([] ++ (none : Option (List Nat)).getD []) none 2 [([1], [1]), ([2], [2])] =
          .ok (rW8.keys, raws, rW8.diskMore) ∧
        rW8.vals = raws.map (fun v => (fW v).getD v)) :=
  ⟨rfl, c8_convert_tolerance dbW 7 [] none 2 fW [([1], [1]), ([2], [2])] rW8 rfl⟩

/-- Claim C5 as stated is refuted here: with the batch value size exactly
equal to the ideal threshold and no abort observed, checkAndFlush neither
publishes the marker nor commits anything — the source flushes only on a
batch size strictly greater than the threshold. -/
theorem c5_counterexample :
    (⟨idealBatchSize, none, none, 0, [], false, false⟩ : FlushState).batchSize ≥ idealBatchSize ∧
    checkAndFlush false [1] ⟨idealBatchSize, none, none, 0, [], false, false⟩ =
      (⟨idealBatchSize, none, none, 0, [], false, false⟩, false) ∧
    ¬ (checkAndFlush false [1] ⟨idealBatchSize, none, none, 0, [], false, false⟩).1.progress = [1] ∧
    (checkAndFlush false [1] ⟨idealBatchSize, none, none, 0, [], false, false⟩).1.commits = 0 ∧
    ¬ (checkAndFlush false [1] ⟨idealBatchSize, none, none, 0, [], false, false⟩).1.diskJournal = some [1] := by
  decide

/-- Claim C5 (amended): checkAndFlush writes the journal record for current
into the batch, commits the batch, resets it and publishes current as the
in-memory progress marker if and only if the batch value size is strictly
greater than the ideal batch-size threshold or an abort request was
observed in the non-blocking poll; it returns the sentinel abort error
exactly when an abort was observed; when it flushed without an abort it
reopens both snapshot iterators and returns no error; and without a flush
the state is untouched. -/
theorem c5_flush_policy (abortObserved : Bool) (current : List Nat) (s : FlushState) :
    ((checkAndFlush abortObserved current s).2 = true ↔ abortObserved = true) ∧
    ((checkAndFlush abortObserved current s).1.commits = s.commits + 1 ↔
      (s.batchSize > idealBatchSize ∨ abortObserved = true)) ∧
    ((s.batchSize > idealBatchSize ∨ abortObserved = true) →
      (checkAndFlush abortObserved current s).1.diskJournal = some current ∧
      (checkAndFlush abortObserved current s).1.progress = current ∧
      (checkAndFlush abortObserved current s).1.batchSize = 0 ∧
      (checkAndFlush abortObserved current s).1.batchJournal = none ∧
      (abortObserved = false →
        (checkAndFlush abortObserved current s).1.accIterReopened = true ∧
        (checkAndFlush abortObserved current s).1.storIterReopened = true ∧
        (checkAndFlush abortObserved current s).2 = false)) ∧
    (¬ (s.batchSize > idealBatchSize ∨ abortObserved = true) →
      checkAndFlush abortObserved current s = (s, false)) := by
  unfold checkAndFlush
  split_ifs with h1 h2
  · simp_all
  · simp_all
  · have habort : abortObserved = false := by
      cases abortObserved
      · rfl
      · exact absurd (Or.inr rfl) h1
    subst habort
    simp_all

/-- Witness for claim C5 (amended) at a concrete aborted flush. -/
theorem c5_flush_policy_witness :
    ((checkAndFlush true [2] ⟨0, none, none, 0, [], false, false⟩).2 = true ↔ true = true) ∧
    ((checkAndFlush true [2] ⟨0, none, none, 0, [], false, false⟩).1.commits =
        (⟨0, none, none, 0, [], false, false⟩ : FlushState).commits + 1 ↔
      ((⟨0, none, none, 0, [], false, false⟩ : FlushState).batchSize > idealBatchSize ∨ true = true)) ∧
    (((⟨0, none, none, 0, [], false, false⟩ : FlushState).batchSize > idealBatchSize ∨ true = true) →
      (checkAndFlush true [2] ⟨0, none, none, 0, [], false, false⟩).1.diskJournal = some [2] ∧
      (checkAndFlush true [2] ⟨0, none, none, 0, [], false, false⟩).1.progress = [2] ∧
      (checkAndFlush true [2] ⟨0, none, none, 0, [], false, false⟩).1.batchSize = 0 ∧
      (checkAndFlush true [2] ⟨0, none, none, 0, [], false, false⟩).1.batchJournal = none ∧
      (true = false →
        (checkAndFlush true [2] ⟨0, none, none, 0, [], false, false⟩).1.accIterReopened = true ∧
        (checkAndFlush true [2] ⟨0, none, none, 0, [], false, false⟩).1.storIterReopened = true ∧
        (checkAndFlush true [2] ⟨0, none, none, 0, [], false, false⟩).2 = false)) ∧
    (¬ ((⟨0, none, none, 0, [], false, false⟩ : FlushState).batchSize > idealBatchSize ∨ true = true) →
      checkAndFlush true [2] ⟨0, none, none, 0, [], false, false⟩ =
        (⟨0, none, none, 0, [], false, false⟩, false)) :=
  c5_flush_policy true [2] ⟨0, none, none, 0, [], false, false⟩

/-- Marker characterization over a run of the account pass: a delete emits
no marker, and the marker of a non-delete account is the account key except
when every earlier event was a delete, the initial accMarker names this
account, and the initial progress carries a storage sub-marker — then the
initial two-segment progress is passed instead. -/
theorem runAccounts_marker (events : List AccEvent) :
    ∀ (am0 : Option (List Nat)) (p0 : List Nat) (i : Nat) (hi : i < events.length),
    (events.get ⟨i, hi⟩).isDelete = false →
    (runAccounts ⟨am0, p0⟩ events).getD i none =
      some (if ((events.take i).all (fun e => e.isDelete)) = true ∧
               am0 = some (events.get ⟨i, hi⟩).key ∧ p0.length > 32
            then p0 else (events.get ⟨i, hi⟩).key) := by
  induction events with
  | nil => intro am0 p0 i hi hnd; simp at hi
  | cons ev rest ih =>
    intro am0 p0 i hi hnd
    cases i with
    | zero =>
      have hnd0 : ev.isDelete = false := hnd
      show ((onAccountStep ⟨am0, p0⟩ ev).1 ::
          runAccounts (onAccountStep ⟨am0, p0⟩ ev).2 rest).getD 0 none = _
      rw [List.getD_cons_zero]
      simp only [onAccountStep, hnd0, Bool.false_eq_true, if_false,
        List.take_zero, List.all_nil, List.get_cons_zero]
      cases am0 with
      | none => simp [accountMarker]
      | some am =>
        by_cases hc : am = ev.key ∧ p0.length > 32
        · simp [accountMarker, hc]
        · simp [accountMarker, hc]
    | succ n =>
      have hn : n < rest.length := by simpa using hi
      have hnd2 : (rest.get ⟨n, hn⟩).isDelete = false := by simpa using hnd
      show ((onAccountStep ⟨am0, p0⟩ ev).1 ::
          runAccounts (onAccountStep ⟨am0, p0⟩ ev).2 rest).getD (n + 1) none = _
      rw [List.getD_cons_succ]
      cases hd : ev.isDelete with
      | true =>
        have hstep : onAccountStep ⟨am0, p0⟩ ev = (none, ⟨am0, p0⟩) := by
          simp [onAccountStep, hd]
        rw [hstep]
        rw [ih am0 p0 n hn hnd2]
        simp [hd, List.take_succ_cons, List.all_cons, List.get_cons_succ]
      | false =>
        have hstep : onAccountStep ⟨am0, p0⟩ ev =
            (some (accountMarker ⟨am0, p0⟩ ev.key),
             ⟨none, ev.storProg.getD
                (if ev.flush then accountMarker ⟨am0, p0⟩ ev.key else p0)⟩) := by
          simp [onAccountStep, hd]
        rw [hstep]
        rw [ih none (ev.storProg.getD
              (if ev.flush then accountMarker ⟨am0, p0⟩ ev.key else p0)) n hn hnd2]
        simp [hd, List.take_succ_cons, List.all_cons, List.get_cons_succ]

/-- Claim C6: for every account delivered by the account-pass callback, the
progress marker passed to checkAndFlush is the account key alone, except
when the account equals the resume marker account part and the resume-time
progress carried a storage sub-marker (length beyond one hash width), which
can only happen while every earlier delivered element was a delete — then
the two-segment marker is kept for that account. -/
theorem c6_marker_choice (am0 : Option (List Nat)) (p0 : List Nat) (events : List AccEvent)
    (i : Nat) (hi : i < events.length)
    (hnd : (events.get ⟨i, hi⟩).isDelete = false) :
    (runAccounts ⟨am0, p0⟩ events).getD i none =
      some (if ((events.take i).all (fun e => e.isDelete)) = true ∧
               am0 = some (events.get ⟨i, hi⟩).key ∧ p0.length > 32
            then p0 else (events.get ⟨i, hi⟩).key) :=
  runAccounts_marker events am0 p0 i hi hnd

/-- Witness for claim C6: after one delete, the account matching the resume
marker with a two-segment progress keeps that progress as its marker. -/
theorem c6_marker_choice_witness :
    (runAccounts ⟨some [9], List.replicate 33 0⟩
        [⟨[7], true, false, none⟩, ⟨[9], false, true, none⟩]).getD 1 none =
      some (List.replicate 33 0) :=
  (c6_marker_choice (some [9]) (List.replicate 33 0)
      [⟨[7], true, false, none⟩, ⟨[9], false, true, none⟩] 1 (by decide) (by decide)).trans
    (by decide)

theorem incRev_all255 : ∀ l : List Nat, (∀ b ∈ l, b = 255) → incRev l = none
  | [], _ => rfl
  | b :: rest, h => by
    have hb : b = 255 := h b (List.mem_cons_self _ _)
    subst hb
    have h0 : ¬ ((255 + 1) % 256 ≠ 0) := by norm_num
    simp only [incRev, h0, if_false]
    rw [incRev_all255 rest (fun x hx => h x (List.mem_cons_of_mem _ hx))]

/-- Carry propagation increments the little-endian value by one whenever
some byte is not 255, preserving the length and the byte bound. -/
theorem incRev_spec : ∀ l : List Nat, (∀ b ∈ l, b < 256) → (∃ b ∈ l, b ≠ 255) →
    ∃ r, incRev l = some r ∧ r.length = l.length ∧
      (∀ b ∈ r, b < 256) ∧ leVal r = leVal l + 1 := by
  intro l
  induction l with
  | nil =>
    rintro _ ⟨b, hb, _⟩
    cases hb
  | cons b rest ih =>
    intro hlt hex
    by_cases hb : b = 255
    · subst hb
      have hex2 : ∃ x ∈ rest, x ≠ 255 := by
        obtain ⟨x, hx, hxne⟩ := hex
        rcases List.mem_cons.mp hx with hx | hx
        · exact absurd hx hxne
        · exact ⟨x, hx, hxne⟩
      obtain ⟨r, hr, hlen, hrb, hval⟩ :=
        ih (fun x hx => hlt x (List.mem_cons_of_mem _ hx)) hex2
      refine ⟨0 :: r, ?_, by simp [hlen], ?_, ?_⟩
      · have h0 : ¬ ((255 + 1) % 256 ≠ 0) := by norm_num
        simp only [incRev, h0, if_false, hr]
      · intro x hx
        rcases List.mem_cons.mp hx with hx | hx
        · subst hx; norm_num
        · exact hrb x hx
      · simp only [leVal]
        rw [hval]
        ring
    · have hblt : b < 256 := hlt b (List.mem_cons_self _ _)
      have h1 : (b + 1) % 256 = b + 1 := Nat.mod_eq_of_lt (by omega)
      have h2 : (b + 1) % 256 ≠ 0 := by omega
      refine ⟨(b + 1) :: rest, ?_, by simp, ?_, ?_⟩
      · have h3 : b + 1 ≠ 0 := by omega
        simp [incRev, h1, h3]
      · intro x hx
        rcases List.mem_cons.mp hx with hx | hx
        · subst hx; omega
        · exact hlt x (List.mem_cons_of_mem _ hx)
      · simp only [leVal]
        omega

theorem leVal_append (l : List Nat) (b : Nat) :
    leVal (l ++ [b]) = leVal l + b * 256 ^ l.length := by
  induction l with
  | nil => simp [leVal]
  | cons x xs ih =>
    have hsplit : (x :: xs) ++ [b] = x :: (xs ++ [b]) := rfl
    rw [hsplit]
    show x + 256 * leVal (xs ++ [b]) = leVal (x :: xs) + b * 256 ^ (x :: xs).length
    rw [ih]
    show x + 256 * (leVal xs + b * 256 ^ xs.length) =
      (x + 256 * leVal xs) + b * 256 ^ (xs.length + 1)
    ring

theorem beVal_reverse (l : List Nat) : beVal l = leVal l.reverse := by
  induction l with
  | nil => rfl
  | cons b rest ih =>
    simp only [beVal, List.reverse_cons, leVal_append, ih, List.length_reverse]
    exact Nat.add_comm _ _

/-- Claim C7: over byte strings (all bytes below 256), increaseKey returns
the overflow sentinel nil exactly when every byte is 255 (including the
empty key), and otherwise returns the byte string of the same length whose
big-endian value is the value of the key plus one. -/
theorem c7_increaseKey (key : List Nat) (hb : ∀ b ∈ key, b < 256) :
    (increaseKey key = none ↔ ∀ b ∈ key, b = 255) ∧
    ((∃ b ∈ key, b ≠ 255) →
      ∃ r, increaseKey key = some r ∧ r.length = key.length ∧
        (∀ b ∈ r, b < 256) ∧ beVal r = beVal key + 1) := by
  have hspec : (∃ b ∈ key, b ≠ 255) →
      ∃ r, increaseKey key = some r ∧ r.length = key.length ∧
        (∀ b ∈ r, b < 256) ∧ beVal r = beVal key + 1 := by
    intro hex
    obtain ⟨b, hbm, hbne⟩ := hex
    obtain ⟨r, hr, hlen, hrb, hval⟩ :=
      incRev_spec key.reverse (fun x hx => hb x (List.mem_reverse.mp hx))
        ⟨b, List.mem_reverse.mpr hbm, hbne⟩
    refine ⟨r.reverse, ?_, ?_, ?_, ?_⟩
    · rw [increaseKey, hr]; rfl
    · simpa using hlen
    · intro x hx
      exact hrb x (List.mem_reverse.mp hx)
    · rw [beVal_reverse, List.reverse_reverse, beVal_reverse key]
      exact hval
  refine ⟨⟨?_, ?_⟩, hspec⟩
  · intro h
    by_contra hnot
    push_neg at hnot
    obtain ⟨r, hr, _, _, _⟩ := hspec hnot
    rw [hr] at h
    cases h
  · intro h
    rw [increaseKey, incRev_all255 key.reverse (fun x hx => h x (List.mem_reverse.mp hx))]
    rfl

/-- Witness for claim C7 at the key 0x00ff, whose increment is 0x0100. -/
theorem c7_increaseKey_witness :
    (∀ b ∈ ([0, 255] : List Nat), b < 256) ∧
    ((increaseKey [0, 255] = none ↔ ∀ b ∈ ([0, 255] : List Nat), b = 255) ∧
     ((∃ b ∈ ([0, 255] : List Nat), b ≠ 255) →
       ∃ r, increaseKey [0, 255] = some r ∧ r.length = ([0, 255] : List Nat).length ∧
         (∀ b ∈ r, b < 256) ∧ beVal r = beVal [0, 255] + 1)) :=
  ⟨by decide, c7_increaseKey [0, 255] (by decide)⟩

/-- Claim C9: splitMarker is total exactly on markers of length zero (nil
accMarker, whole marker back) or at least one hash width (first 32 bytes and
the whole marker); for lengths one to thirty-one the slicing bound is out of
range and the error branch of the embedding is reached. -/
theorem c9_splitMarker (marker : List Nat) :
    (marker.length = 0 → splitMarker marker = some (none, marker)) ∧
    (32 ≤ marker.length → splitMarker marker = some (some (marker.take 32), marker)) ∧
    (splitMarker marker = none ↔ 1 ≤ marker.length ∧ marker.length < 32) := by
  unfold splitMarker
  split_ifs with h1 h2
  · refine ⟨fun h => by omega, fun _ => rfl, ?_⟩
    simp only [reduceCtorEq, false_iff]
    omega
  · refine ⟨fun h => by omega, fun h => by omega, ?_⟩
    simp only [true_iff]
    omega
  · refine ⟨fun _ => rfl, fun h => by omega, ?_⟩
    simp only [reduceCtorEq, false_iff]
    omega

/-- Witness for claim C9 at a one-byte marker, which hits the out-of-range
branch. -/
theorem c9_splitMarker_witness :
    (([5] : List Nat).length = 0 → splitMarker [5] = some (none, [5])) ∧
    (32 ≤ ([5] : List Nat).length → splitMarker [5] = some (some (([5] : List Nat).take 32), [5])) ∧
    (splitMarker [5] = none ↔ 1 ≤ ([5] : List Nat).length ∧ ([5] : List Nat).length < 32) :=
  c9_splitMarker [5]

/-- Claim C10 fails on the code: requesting 1000, 100 and 500 bytes (each at
most arenaPageSize) from a fresh allocator makes the third call compute page
index 2 while only two pages have been appended, so a.bytes[pageIndex] is
out of range. The overflow branch zeroes pageOffset before adding
arenaPageSize - pageOffset to usedBytes, advancing a full page instead of
the remaining space. -/
theorem c10_newBytes_out_of_range :
    1000 ≤ arenaPageSize ∧ 100 ≤ arenaPageSize ∧ 500 ≤ arenaPageSize ∧
    (newBytes ⟨0, 0⟩ 1000).2.1 = 0 ∧ (newBytes ⟨0, 0⟩ 1000).1.pages = 1 ∧
    (newBytes (newBytes ⟨0, 0⟩ 1000).1 100).2.1 = 1 ∧
    (newBytes (newBytes ⟨0, 0⟩ 1000).1 100).1.pages = 2 ∧
    (newBytes (newBytes (newBytes ⟨0, 0⟩ 1000).1 100).1 500).2.1 = 2 ∧
    (newBytes (newBytes (newBytes ⟨0, 0⟩ 1000).1 100).1 500).1.pages = 2 ∧
    ¬ ((newBytes (newBytes (newBytes ⟨0, 0⟩ 1000).1 100).1 500).2.1 <
       (newBytes (newBytes (newBytes ⟨0, 0⟩ 1000).1 100).1 500).1.pages) := by
  decide

end PathdbGen
